import Mathlib

/-!
Verification of the candle-aggregation core of the spark-candles service.

The definitions below are a shallow embedding of the Rust sources:

* `Candle`, `get_period_start`, `gapFill`, `add_price_core`,
  `add_price_series`, `add_price`, `MAX_CANDLES`
  embed `src/storage/candles.rs` (`CandleStore::add_price` and
  `CandleStore::get_period_start`); `f64` prices and volumes are modelled
  as rationals, `DateTime<Utc>` as Unix seconds (`ℤ`).  Rust's `%` on
  `i64` truncates toward zero, which is `Int.tmod`; chrono's
  `date_naive`/`num_days_from_monday` are calendar (floor) arithmetic.
* `PangeaOrderEvent`, `handle_order_event`, `intervals`
  embed `src/indexer/order_event_handler.rs`.
* `histLoop`, `DeltaState`, `deltaStep`
  embed the cursor arithmetic of `fetch_historical_data` and
  `listen_for_new_deltas` in `src/indexer/pangea.rs`.
* `resolveResolution` embeds the resolution match of
  `get_history` in `src/web/routes/history.rs`.
-/

namespace SparkCandles

/-- One OHLCV candle (struct `Candle` in `storage/candles.rs`).  The Rust
field `open` is a Lean keyword, hence `open_`.  `timestamp` is the bucket
start in Unix seconds. -/
structure Candle where
  open_ : ℚ
  high : ℚ
  low : ℚ
  close : ℚ
  volume : ℚ
  timestamp : ℤ
  deriving DecidableEq, Repr

/-- `CandleStore::get_period_start` from `storage/candles.rs`.

The Rust match arms are `60 | 180 | 300 | 900 | 3600` (note: `1800` is
*not* in the first arm, it falls through to the wildcard arm, which
computes the same expression), then `86400` (midnight UTC of the event's
date, i.e. floor-division of the timestamp by 86400), then `604800`
(the preceding Monday 00:00 UTC; day 0 of the Unix epoch is a Thursday,
so `num_days_from_monday = (days + 3).emod 7`), and a wildcard arm that
rounds down with Rust's truncating `%` (`Int.tmod`). -/
def get_period_start (t : ℤ) (interval : ℕ) : ℤ :=
  if interval = 60 ∨ interval = 180 ∨ interval = 300 ∨ interval = 900 ∨ interval = 3600 then
    t - Int.tmod t interval
  else if interval = 86400 then
    86400 * (t / 86400)
  else if interval = 604800 then
    86400 * (t / 86400 - (t / 86400 + 3) % 7)
  else
    t - Int.tmod t interval

/-- The body of the gap-filling `while missing_time < period_start` loop
of `CandleStore::add_price` (`storage/candles.rs` lines 66-84), written
with an explicit fuel so that it is structurally recursive (hence
computable by kernel reduction).  `gapFill` below supplies enough fuel
for the loop to run to completion, and `gapFill_eq` recovers the
literal `while` shape of the source. -/
def gapFillLoop (lastClose : ℚ) (interval : ℕ) (period : ℤ) :
    ℕ → ℤ → List Candle
  | 0, _ => []
  | fuel + 1, missing =>
    if 0 < interval ∧ missing < period then
      { open_ := lastClose, high := lastClose, low := lastClose, close := lastClose,
        volume := 0, timestamp := missing } ::
        gapFillLoop lastClose interval period fuel (missing + interval)
    else
      []

/-- The gap-filling loop of `CandleStore::add_price`: repeatedly push a
flat candle carrying the previous close, stepping by `interval` seconds,
while `missing < period`.  The `0 < interval` guard makes the loop
terminate; in every call site of the source the interval is one of the
nine positive supported intervals. -/
def gapFill (lastClose : ℚ) (interval : ℕ) (missing period : ℤ) : List Candle :=
  gapFillLoop lastClose interval period (period - missing).toNat missing

/-- `MAX_CANDLES` from `CandleStore::add_price`. -/
def MAX_CANDLES : ℕ := 1000000

/-- The body of `CandleStore::add_price` acting on one
`(symbol, interval)` candle vector, before the retention limit: update
the last candle in place when the period matches, otherwise gap-fill and
push a fresh candle at `period_start`. -/
def add_price_core (interval : ℕ) (list : List Candle) (price volume : ℚ)
    (event_time : ℤ) : List Candle :=
  let period_start := get_period_start event_time interval
  match list.getLast? with
  | some last =>
    if last.timestamp = period_start then
      list.dropLast ++
        [{ last with
            high := max last.high price
            low := min last.low price
            close := price
            volume := last.volume + volume }]
    else
      (list ++ gapFill last.close interval (last.timestamp + interval) period_start) ++
        [{ open_ := price, high := price, low := price, close := price,
           volume := volume, timestamp := period_start }]
  | none =>
    list ++
      [{ open_ := price, high := price, low := price, close := price,
         volume := volume, timestamp := period_start }]

/-- `CandleStore::add_price` on one candle vector, including the
retention limit `drain(0..(len - MAX_CANDLES))` when the length exceeds
`MAX_CANDLES`. -/
def add_price_series (interval : ℕ) (list : List Candle) (price volume : ℚ)
    (event_time : ℤ) : List Candle :=
  let l := add_price_core interval list price volume event_time
  if MAX_CANDLES < l.length then l.drop (l.length - MAX_CANDLES) else l

/-- The `symbol -> interval -> Vec<Candle>` map of `CandleStore`,
with `entry(..).or_default()` modelled by a total function defaulting to
the empty series. -/
def Store := String → ℕ → List Candle

/-- A fresh `CandleStore::new()`. -/
def emptyStore : Store := fun _ _ => []

/-- `CandleStore::add_price`: the store after folding one trade.  Only
the addressed `(symbol, interval)` entry changes. -/
def add_price (S : Store) (symbol : String) (interval : ℕ) (price volume : ℚ)
    (event_time : ℤ) : Store :=
  fun symbol' interval' =>
    if symbol' = symbol ∧ interval' = interval then
      add_price_series interval (S symbol interval) price volume event_time
    else
      S symbol' interval'

/-- One `add_price` call (its arguments). -/
structure Ev where
  symbol : String
  interval : ℕ
  price : ℚ
  volume : ℚ
  time : ℤ

/-- Fold a sequence of `add_price` calls into a store. -/
def runTraceFrom (S : Store) : List Ev → Store
  | [] => S
  | e :: r => runTraceFrom (add_price S e.symbol e.interval e.price e.volume e.time) r

/-- All stores reachable from the empty store by `add_price` calls. -/
def runTrace (tr : List Ev) : Store := runTraceFrom emptyStore tr

/-- `true` when every call in the trace is in order: at the moment it is
processed, its computed `period_start` is not below the `bucket_start` of
the then-last candle of the addressed series. -/
def storeInOrderB : Store → List Ev → Bool
  | _, [] => true
  | S, e :: r =>
    (match (S e.symbol e.interval).getLast? with
     | none => true
     | some last => decide (last.timestamp ≤ get_period_start e.time e.interval)) &&
    storeInOrderB (add_price S e.symbol e.interval e.price e.volume e.time) r

/-- `PangeaOrderEvent` from `indexer/order_event_handler.rs` (the `u128`
price and amount become `ℕ`). -/
structure PangeaOrderEvent where
  chain : ℕ
  block_number : ℤ
  block_hash : String
  block_timestamp : ℤ
  transaction_hash : String
  transaction_index : ℕ
  log_index : ℕ
  market_id : String
  order_id : String
  event_type : Option String
  asset : Option String
  amount : Option ℕ
  asset_type : Option String
  order_type : Option String
  price : Option ℕ
  user : Option String
  order_matcher : Option String
  owner : Option String
  limit_type : Option String

/-- The interval list iterated by `handle_order_event`. -/
def intervals : List ℕ := [60, 180, 300, 900, 1800, 3600, 86400, 604800, 2592000]

/-- `handle_order_event` from `indexer/order_event_handler.rs`: folds a
`"Trade"` event with both `price` and `amount` present into the store
under the hard-coded symbol `"AAPL"` (the function ignores the pair
configuration; its callers in `indexer/pangea.rs` pass a `symbol`
argument the function does not even declare), once per interval in
`intervals`, at `block_timestamp`. -/
def handle_order_event (store : Store) (e : PangeaOrderEvent) : Store :=
  match e.event_type with
  | some event_type =>
    if event_type = "Trade" then
      match e.price, e.amount with
      | some p, some a =>
        intervals.foldl
          (fun st interval =>
            add_price st "AAPL" interval (p : ℚ) (a : ℚ) e.block_timestamp)
          store
      | _, _ => store
    else store
  | none => store

/-- A concrete decoded Trade record, used to exercise
`handle_order_event` on a sample input. -/
def sampleTradeEvent : PangeaOrderEvent where
  chain := 0
  block_number := 1
  block_hash := ""
  block_timestamp := 1700000000
  transaction_hash := ""
  transaction_index := 0
  log_index := 0
  market_id := ""
  order_id := ""
  event_type := some "Trade"
  asset := none
  amount := some 5
  asset_type := none
  order_type := none
  price := some 100
  user := none
  order_matcher := none
  owner := none
  limit_type := none

/-- The cursor loop of `fetch_historical_data` (`indexer/pangea.rs`):
`while last < target { last = min(last + 10_000, target) }`, returning
the final `last_processed_block`. -/
def histLoop (cursor target : ℤ) : ℤ :=
  if cursor < target then histLoop (min (cursor + 10000) target) target else cursor
  termination_by (target - cursor).toNat
  decreasing_by omega

/-- `i64::MIN`, the saturation point of `saturating_sub`. -/
def i64Min : ℤ := -(2 ^ 63)

/-- `latest_block.saturating_sub(buffer_blocks)` on `i64`. -/
def satSub (a b : ℤ) : ℤ := max (a - b) i64Min

/-- The observable state of the `listen_for_new_deltas` loop: the mutable
`last_processed_block` cursor and the block numbers of the records handed
to `handle_order_event`, in order. -/
structure DeltaState where
  cursor : ℤ
  folded : List ℤ
  deriving DecidableEq, Repr

/-- The two state-changing occurrences in the `listen_for_new_deltas`
select loop (`indexer/pangea.rs` lines 173-236): the 10-minute reconnect
tick sets the cursor to `latest_block.saturating_sub(10)`, and each
streamed record is handed to `handle_order_event` unconditionally and
then sets the cursor to its `block_number`. -/
inductive DeltaEv
  | tick (latest : ℤ)
  | record (blockNumber : ℤ)

/-- One step of the `listen_for_new_deltas` loop. -/
def deltaStep (s : DeltaState) : DeltaEv → DeltaState
  | .tick latest => { s with cursor := satSub latest 10 }
  | .record b => { cursor := b, folded := s.folded ++ [b] }

/-- The continuity step relation of the spec: the second candle starts
exactly `interval` seconds after the first. -/
def chainStep (interval : ℕ) (a b : Candle) : Prop :=
  b.timestamp = a.timestamp + (interval : ℤ)

instance (interval : ℕ) (a b : Candle) : Decidable (chainStep interval a b) :=
  inferInstanceAs (Decidable (b.timestamp = a.timestamp + (interval : ℤ)))

/-- A bucket start that the alignment function leaves fixed. -/
def aligned (interval : ℕ) (t : ℤ) : Prop := get_period_start t interval = t

/-- The OHLC ordering and non-negative-volume invariant of the spec. -/
def ohlcOk (c : Candle) : Prop :=
  c.low ≤ min c.open_ c.close ∧ min c.open_ c.close ≤ max c.open_ c.close ∧
    max c.open_ c.close ≤ c.high ∧ 0 ≤ c.volume

/-- The number of candles the gap-filling loop inserts when started at
`missing` with target `period`. -/
def gapCount (interval : ℕ) (missing period : ℤ) : ℕ :=
  if 0 < interval ∧ missing < period then ((period - missing - 1) / interval).toNat + 1
  else 0

/-- A flat zero-volume candle, as pushed by the gap-filling loop. -/
def flatCandle (c : ℚ) (ts : ℤ) : Candle :=
  { open_ := c, high := c, low := c, close := c, volume := 0, timestamp := ts }

/-- The `match resolution.as_str()` table of `get_history` in
`web/routes/history.rs`: `some` interval for the seven recognised
strings, `none` for the wildcard arm that returns the error response. -/
def resolveResolution (r : String) : Option ℕ :=
  if r = "1" then some 60
  else if r = "5" then some 300
  else if r = "15" then some 900
  else if r = "30" then some 1800
  else if r = "60" then some 3600
  else if r = "1D" then some 86400
  else if r = "1W" then some 604800
  else none

/-! ### Arithmetic facts about `get_period_start` and `aligned` -/

theorem get_period_start_eq_tmod (t : ℤ) (interval : ℕ) (h86 : interval ≠ 86400)
    (h604 : interval ≠ 604800) :
    get_period_start t interval = t - Int.tmod t interval := by
  unfold get_period_start
  split <;> first | rfl | omega

theorem tmod_eq_zero_iff_dvd (t i : ℤ) : Int.tmod t i = 0 ↔ i ∣ t :=
  ⟨Int.dvd_of_tmod_eq_zero, Int.tmod_eq_zero_of_dvd⟩

theorem aligned_iff_dvd (t : ℤ) (interval : ℕ) (h86 : interval ≠ 86400)
    (h604 : interval ≠ 604800) :
    aligned interval t ↔ (interval : ℤ) ∣ t := by
  unfold aligned
  rw [get_period_start_eq_tmod t interval h86 h604, ← tmod_eq_zero_iff_dvd]
  omega

theorem aligned_86400_iff (t : ℤ) : aligned 86400 t ↔ (86400 : ℤ) ∣ t := by
  unfold aligned get_period_start
  norm_num
  omega

theorem aligned_604800_iff (t : ℤ) : aligned 604800 t ↔ t % 604800 = 345600 := by
  unfold aligned get_period_start
  norm_num
  omega

theorem aligned_dvd_sub (a b : ℤ) (interval : ℕ) (ha : aligned interval a)
    (hb : aligned interval b) : (interval : ℤ) ∣ b - a := by
  by_cases h86 : interval = 86400
  · subst h86
    rw [aligned_86400_iff] at ha hb
    push_cast
    exact dvd_sub hb ha
  · by_cases h604 : interval = 604800
    · subst h604
      rw [aligned_604800_iff] at ha hb
      push_cast
      omega
    · rw [aligned_iff_dvd a interval h86 h604] at ha
      rw [aligned_iff_dvd b interval h86 h604] at hb
      exact dvd_sub hb ha

theorem aligned_add_interval (t : ℤ) (interval : ℕ) (h : aligned interval t) :
    aligned interval (t + interval) := by
  by_cases h86 : interval = 86400
  · subst h86
    rw [aligned_86400_iff] at h ⊢
    push_cast
    omega
  · by_cases h604 : interval = 604800
    · subst h604
      rw [aligned_604800_iff] at h ⊢
      push_cast
      omega
    · rw [aligned_iff_dvd _ interval h86 h604] at h ⊢
      exact dvd_add h (dvd_refl _)

theorem aligned_get_period_start (t : ℤ) (interval : ℕ) :
    aligned interval (get_period_start t interval) := by
  by_cases h86 : interval = 86400
  · subst h86
    unfold aligned get_period_start
    norm_num
    try omega
  · by_cases h604 : interval = 604800
    · subst h604
      unfold aligned get_period_start
      norm_num
      try omega
    · rw [aligned_iff_dvd _ interval h86 h604,
        get_period_start_eq_tmod t interval h86 h604]
      have h := Int.tdiv_add_tmod t interval
      exact ⟨Int.tdiv t interval, by omega⟩

/-! ### The gap-filling loop -/

theorem gapCount_succ (interval : ℕ) (missing period : ℤ) (hi : 0 < interval)
    (hlt : missing < period) :
    gapCount interval missing period = gapCount interval (missing + interval) period + 1 := by
  have hi' : (0 : ℤ) < interval := by exact_mod_cast hi
  unfold gapCount
  by_cases hlt' : missing + interval < period
  · have hE : (period - missing - 1) / (interval : ℤ) =
        (period - (missing + interval) - 1) / (interval : ℤ) + 1 := by
      have := Int.add_mul_ediv_right (period - (missing + interval) - 1) 1
        (c := (interval : ℤ)) (by omega)
      have harg : period - (missing + interval) - 1 + 1 * interval = period - missing - 1 := by
        ring
      rw [harg] at this
      omega
    have hnn : 0 ≤ (period - (missing + interval) - 1) / (interval : ℤ) :=
      Int.ediv_nonneg (by omega) (by omega)
    rw [if_pos ⟨hi, hlt⟩, if_pos ⟨hi, hlt'⟩]
    omega
  · have h0 : (period - missing - 1) / (interval : ℤ) = 0 :=
      Int.ediv_eq_zero_of_lt (by omega) (by omega)
    rw [if_pos ⟨hi, hlt⟩, if_neg (by tauto), h0]
    rfl

theorem gapFillLoop_congr (lastClose : ℚ) (interval : ℕ) (period : ℤ) (hi : 0 < interval) :
    ∀ (fuel₁ fuel₂ : ℕ) (missing : ℤ), (period - missing).toNat ≤ fuel₁ →
      (period - missing).toNat ≤ fuel₂ →
      gapFillLoop lastClose interval period fuel₁ missing =
        gapFillLoop lastClose interval period fuel₂ missing := by
  intro fuel₁
  induction fuel₁ with
  | zero =>
    intro fuel₂ missing h1 h2
    cases fuel₂ with
    | zero => rfl
    | succ g =>
      simp only [gapFillLoop]
      rw [if_neg]
      rintro ⟨_, hlt⟩
      omega
  | succ f ih =>
    intro fuel₂ missing h1 h2
    cases fuel₂ with
    | zero =>
      simp only [gapFillLoop]
      rw [if_neg]
      rintro ⟨_, hlt⟩
      omega
    | succ g =>
      simp only [gapFillLoop]
      by_cases hc : 0 < interval ∧ missing < period
      · rw [if_pos hc, if_pos hc]
        have hi1 : (1 : ℤ) ≤ interval := by exact_mod_cast hi
        exact congrArg _ (ih g (missing + interval) (by omega) (by omega))
      · rw [if_neg hc, if_neg hc]

/-- `gapFill` satisfies the literal recurrence of the source's `while`
loop. -/
theorem gapFill_eq (lastClose : ℚ) (interval : ℕ) (missing period : ℤ) :
    gapFill lastClose interval missing period =
      if 0 < interval ∧ missing < period then
        { open_ := lastClose, high := lastClose, low := lastClose, close := lastClose,
          volume := 0, timestamp := missing } ::
          gapFill lastClose interval (missing + interval) period
      else [] := by
  by_cases hc : 0 < interval ∧ missing < period
  · rw [if_pos hc]
    obtain ⟨hi, hlt⟩ := hc
    have hi1 : (1 : ℤ) ≤ interval := by exact_mod_cast hi
    unfold gapFill
    have hfuel : (period - missing).toNat = ((period - missing).toNat - 1) + 1 := by
      omega
    rw [hfuel]
    simp only [gapFillLoop]
    rw [if_pos ⟨hi, hlt⟩]
    exact congrArg _ (gapFillLoop_congr lastClose interval period hi _ _
      (missing + interval) (by omega) (by omega))
  · rw [if_neg hc]
    unfold gapFill
    cases hf : (period - missing).toNat with
    | zero => rfl
    | succ g =>
      simp only [gapFillLoop]
      rw [if_neg hc]

theorem gapFill_eq_range (lastClose : ℚ) (interval : ℕ) (missing period : ℤ) :
    gapFill lastClose interval missing period =
      (List.range (gapCount interval missing period)).map
        (fun k : ℕ => flatCandle lastClose (missing + (k : ℤ) * interval)) := by
  suffices H : ∀ (n : ℕ) (missing : ℤ), (period - missing).toNat = n →
      gapFill lastClose interval missing period =
        (List.range (gapCount interval missing period)).map
          (fun k : ℕ => flatCandle lastClose (missing + (k : ℤ) * interval)) by
    exact H _ missing rfl
  intro n
  induction n using Nat.strong_induction_on with
  | _ n ih =>
    intro missing hn
    rw [gapFill_eq]
    split
    next h =>
      have hi1 : (1 : ℤ) ≤ interval := by exact_mod_cast h.1
      have hrec := ih ((period - (missing + interval)).toNat) (by omega)
        (missing + interval) rfl
      rw [hrec, gapCount_succ interval missing period h.1 h.2,
        List.range_succ_eq_map, List.map_cons, List.map_map]
      refine congrArg₂ _ ?_ ?_
      · simp [flatCandle]
      · refine List.map_congr_left fun k _ => ?_
        simp only [Function.comp]
        congr 1
        push_cast
        ring
    next h =>
      unfold gapCount
      rw [if_neg h]
      rfl

theorem gapCount_mul_eq (interval : ℕ) (missing period : ℤ) (hi : 0 < interval)
    (hd : (interval : ℤ) ∣ period - missing) (hle : missing ≤ period) :
    missing + (gapCount interval missing period : ℤ) * interval = period := by
  have hi' : (0 : ℤ) < interval := by exact_mod_cast hi
  obtain ⟨q, hq⟩ := hd
  by_cases hlt : missing < period
  · have hq1 : 1 ≤ q := by nlinarith
    have hdiv : (period - missing - 1) / (interval : ℤ) = q - 1 := by
      have harg : period - missing - 1 = (interval - 1) + (q - 1) * interval := by
        rw [hq]; ring
      rw [harg, Int.add_mul_ediv_right _ _ (by omega : (interval : ℤ) ≠ 0),
        Int.ediv_eq_zero_of_lt (by omega) (by omega)]
      ring
    unfold gapCount
    rw [if_pos ⟨hi, hlt⟩, hdiv]
    have : (((q - 1).toNat + 1 : ℕ) : ℤ) = q := by omega
    rw [this]
    linear_combination -hq
  · have hq0 : period = missing := by omega
    unfold gapCount
    rw [if_neg (by tauto)]
    simpa using hq0.symm

theorem chain'_flat_range (lastClose : ℚ) (interval : ℕ) (m : ℤ) (n : ℕ) :
    List.Chain' (chainStep interval)
      ((List.range n).map (fun k : ℕ => flatCandle lastClose (m + (k : ℤ) * interval))) := by
  induction n with
  | zero => simp
  | succ p ih =>
    rw [List.range_succ, List.map_append]
    refine List.chain'_append.2 ⟨ih, List.chain'_singleton _, ?_⟩
    intro x hx y hy
    simp only [List.map_cons, List.map_nil, List.head?_cons, Option.mem_def,
      Option.some.injEq] at hy
    subst hy
    cases p with
    | zero => simp at hx
    | succ p' =>
      rw [List.range_succ, List.map_append] at hx
      simp only [List.map_cons, List.map_nil] at hx
      rw [List.getLast?_concat] at hx
      simp only [Option.mem_def, Option.some.injEq] at hx
      subst hx
      unfold chainStep flatCandle
      push_cast
      ring

/-! ### Shape lemmas for `add_price_core` / `add_price_series` -/

theorem aligned_add_mul (t : ℤ) (interval : ℕ) (h : aligned interval t) (k : ℕ) :
    aligned interval (t + (k : ℤ) * interval) := by
  induction k with
  | zero => simpa using h
  | succ q ih =>
    have h2 := aligned_add_interval _ interval ih
    have harg : t + (q : ℤ) * interval + interval = t + ((q : ℕ) + 1 : ℕ) * interval := by
      push_cast
      ring
    rwa [harg] at h2

theorem mem_gapFill (lastClose : ℚ) (interval : ℕ) (missing period : ℤ) (cd : Candle)
    (h : cd ∈ gapFill lastClose interval missing period) :
    ∃ k : ℕ, cd = flatCandle lastClose (missing + (k : ℤ) * interval) := by
  rw [gapFill_eq_range] at h
  simp only [List.mem_map, List.mem_range] at h
  obtain ⟨k, _, hk⟩ := h
  exact ⟨k, hk.symm⟩

theorem getLast?_eq_some_mem (l : List Candle) (a : Candle) (h : l.getLast? = some a) :
    a ∈ l := by
  have hne : l ≠ [] := by rintro rfl; simp at h
  rw [List.getLast?_eq_getLast l hne] at h
  exact (Option.some.inj h) ▸ List.getLast_mem hne

theorem chain'_gap_append (interval : ℕ) (hi : 0 < interval) (s : List Candle) (L N : Candle)
    (hL : s.getLast? = some L) (hchain : List.Chain' (chainStep interval) s)
    (haL : aligned interval L.timestamp) (haN : aligned interval N.timestamp)
    (hlt : L.timestamp < N.timestamp) :
    List.Chain' (chainStep interval)
      ((s ++ gapFill L.close interval (L.timestamp + interval) N.timestamp) ++ [N]) := by
  have hi' : (0 : ℤ) < interval := by exact_mod_cast hi
  have hdvd : (interval : ℤ) ∣ N.timestamp - L.timestamp := aligned_dvd_sub _ _ _ haL haN
  have hge : (interval : ℤ) ≤ N.timestamp - L.timestamp := Int.le_of_dvd (by omega) hdvd
  have hdvd' : (interval : ℤ) ∣ N.timestamp - (L.timestamp + interval) := by
    have harg : N.timestamp - (L.timestamp + interval) =
        N.timestamp - L.timestamp - interval := by ring
    rw [harg]
    exact dvd_sub hdvd (dvd_refl _)
  have hcnt := gapCount_mul_eq interval (L.timestamp + interval) N.timestamp hi hdvd'
    (by omega)
  rw [gapFill_eq_range]
  refine List.chain'_append.2 ⟨List.chain'_append.2
    ⟨hchain, chain'_flat_range _ _ _ _, ?_⟩, List.chain'_singleton _, ?_⟩
  · intro x hx y hy
    rw [hL] at hx
    simp only [Option.mem_def, Option.some.injEq] at hx
    subst hx
    cases hc : gapCount interval (L.timestamp + interval) N.timestamp with
    | zero => rw [hc] at hy; simp at hy
    | succ q =>
      rw [hc, List.range_succ_eq_map, List.map_cons, List.head?_cons] at hy
      simp only [Option.mem_def, Option.some.injEq] at hy
      subst hy
      unfold chainStep flatCandle
      simp
  · intro x hx y hy
    simp only [List.head?_cons, Option.mem_def, Option.some.injEq] at hy
    subst hy
    cases hc : gapCount interval (L.timestamp + interval) N.timestamp with
    | zero =>
      rw [hc] at hx
      simp only [List.range_zero, List.map_nil, List.append_nil] at hx
      rw [hL] at hx
      simp only [Option.mem_def, Option.some.injEq] at hx
      subst hx
      unfold chainStep
      rw [hc] at hcnt
      push_cast at hcnt
      omega
    | succ q =>
      rw [hc, List.range_succ, List.map_append] at hx
      simp only [List.map_cons, List.map_nil] at hx
      rw [← List.append_assoc, List.getLast?_concat] at hx
      simp only [Option.mem_def, Option.some.injEq] at hx
      subst hx
      unfold chainStep flatCandle
      rw [hc] at hcnt
      push_cast at hcnt
      have hq : ((q : ℤ) + 1) * interval = (q : ℤ) * interval + interval := by ring
      rw [hq] at hcnt
      dsimp only
      linarith [hcnt]

theorem add_price_series_eq_drop (interval : ℕ) (s : List Candle) (p v : ℚ) (t : ℤ) :
    add_price_series interval s p v t =
      (add_price_core interval s p v t).drop
        ((add_price_core interval s p v t).length - MAX_CANDLES) := by
  simp only [add_price_series]
  split
  next h => rfl
  next h => rw [Nat.sub_eq_zero_of_le (by omega), List.drop_zero]

theorem length_add_price_series_le (interval : ℕ) (s : List Candle) (p v : ℚ) (t : ℤ) :
    (add_price_series interval s p v t).length ≤ MAX_CANDLES := by
  rw [add_price_series_eq_drop, List.length_drop]
  omega

theorem add_price_core_nil (interval : ℕ) (p v : ℚ) (t : ℤ) :
    add_price_core interval [] p v t =
      [{ open_ := p
         high := p
         low := p
         close := p
         volume := v
         timestamp := get_period_start t interval }] := by
  unfold add_price_core
  simp

theorem add_price_core_update (interval : ℕ) (s : List Candle) (p v : ℚ) (t : ℤ)
    (L : Candle) (hL : s.getLast? = some L)
    (heq : L.timestamp = get_period_start t interval) :
    add_price_core interval s p v t =
      s.dropLast ++
        [{ L with
            high := max L.high p
            low := min L.low p
            close := p
            volume := L.volume + v }] := by
  unfold add_price_core
  rw [hL]
  simp only [if_pos heq]

theorem add_price_core_append (interval : ℕ) (s : List Candle) (p v : ℚ) (t : ℤ)
    (L : Candle) (hL : s.getLast? = some L)
    (hne : L.timestamp ≠ get_period_start t interval) :
    add_price_core interval s p v t =
      (s ++ gapFill L.close interval (L.timestamp + interval)
          (get_period_start t interval)) ++
        [{ open_ := p
           high := p
           low := p
           close := p
           volume := v
           timestamp := get_period_start t interval }] := by
  unfold add_price_core
  rw [hL]
  simp only [if_neg hne]

/-! ### Per-call preservation of continuity, alignment and OHLC order -/

set_option maxRecDepth 4000 in
theorem step_preserves_chain (interval : ℕ) (hi : 0 < interval) (s : List Candle)
    (p v : ℚ) (t : ℤ)
    (hchain : List.Chain' (chainStep interval) s)
    (halign : ∀ cd ∈ s, aligned interval cd.timestamp)
    (hord : ∀ L ∈ s.getLast?, L.timestamp ≤ get_period_start t interval) :
    List.Chain' (chainStep interval) (add_price_series interval s p v t) := by
  rw [add_price_series_eq_drop]
  generalize (add_price_core interval s p v t).length - MAX_CANDLES = n
  suffices hcore : List.Chain' (chainStep interval) (add_price_core interval s p v t) by
    exact List.Chain'.suffix hcore (List.drop_suffix _ _)
  cases hL : s.getLast? with
  | none =>
    have hs : s = [] := List.getLast?_eq_none.1 hL
    subst hs
    rw [add_price_core_nil]
    exact List.chain'_singleton _
  | some L =>
    have hLmem : L ∈ s := getLast?_eq_some_mem s L hL
    have hordL : L.timestamp ≤ get_period_start t interval := hord L (by rw [hL]; rfl)
    by_cases heq : L.timestamp = get_period_start t interval
    · rw [add_price_core_update interval s p v t L hL heq]
      have hne : s ≠ [] := by rintro rfl; simp at hL
      have hgl : s.getLast hne = L := by
        rw [List.getLast?_eq_getLast s hne] at hL
        exact Option.some.inj hL
      have hs' : s.dropLast ++ [L] = s := by
        rw [← hgl]
        exact List.dropLast_append_getLast hne
      rw [← hs'] at hchain
      rw [List.chain'_append] at hchain ⊢
      obtain ⟨h1, _, h3⟩ := hchain
      refine ⟨h1, List.chain'_singleton _, fun x hx y hy => ?_⟩
      simp only [List.head?_cons, Option.mem_def, Option.some.injEq] at hy
      subst hy
      have hstep := h3 x hx L (by simp)
      unfold chainStep at hstep ⊢
      simpa using hstep
    · have hlt : L.timestamp < get_period_start t interval :=
        lt_of_le_of_ne hordL heq
      rw [add_price_core_append interval s p v t L hL heq]
      exact chain'_gap_append interval hi s L
        { open_ := p
          high := p
          low := p
          close := p
          volume := v
          timestamp := get_period_start t interval } hL hchain (halign L hLmem)
        (aligned_get_period_start t interval) hlt

theorem step_preserves_aligned (interval : ℕ) (s : List Candle) (p v : ℚ) (t : ℤ)
    (halign : ∀ cd ∈ s, aligned interval cd.timestamp) :
    ∀ cd ∈ add_price_series interval s p v t, aligned interval cd.timestamp := by
  rw [add_price_series_eq_drop]
  intro cd hcd
  have hcd' := List.mem_of_mem_drop hcd
  cases hL : s.getLast? with
  | none =>
    have hs : s = [] := List.getLast?_eq_none.1 hL
    subst hs
    rw [add_price_core_nil] at hcd'
    simp only [List.mem_singleton] at hcd'
    subst hcd'
    exact aligned_get_period_start t interval
  | some L =>
    have hLmem : L ∈ s := getLast?_eq_some_mem s L hL
    by_cases heq : L.timestamp = get_period_start t interval
    · rw [add_price_core_update interval s p v t L hL heq] at hcd'
      rcases List.mem_append.1 hcd' with h | h
      · exact halign cd (List.mem_of_mem_dropLast h)
      · simp only [List.mem_singleton] at h
        subst h
        exact halign L hLmem
    · rw [add_price_core_append interval s p v t L hL heq] at hcd'
      rcases List.mem_append.1 hcd' with h | h
      · rcases List.mem_append.1 h with h2 | h2
        · exact halign cd h2
        · obtain ⟨k, hk⟩ := mem_gapFill _ _ _ _ _ h2
          subst hk
          have hbase := aligned_add_interval L.timestamp interval (halign L hLmem)
          exact aligned_add_mul _ interval hbase k
      · simp only [List.mem_singleton] at h
        subst h
        exact aligned_get_period_start t interval

theorem step_preserves_ohlc (interval : ℕ) (s : List Candle) (p v : ℚ) (t : ℤ)
    (hp : 0 ≤ p) (hv : 0 ≤ v) (hohlc : ∀ cd ∈ s, ohlcOk cd) :
    ∀ cd ∈ add_price_series interval s p v t, ohlcOk cd := by
  rw [add_price_series_eq_drop]
  intro cd hcd
  have hcd' := List.mem_of_mem_drop hcd
  have hflat : ∀ q ts, 0 ≤ q → ohlcOk (flatCandle q ts) := by
    intro q ts _
    unfold ohlcOk flatCandle
    simp
  have hnew : ohlcOk
      { open_ := p
        high := p
        low := p
        close := p
        volume := v
        timestamp := get_period_start t interval } := by
    unfold ohlcOk
    simp [hv]
  cases hL : s.getLast? with
  | none =>
    have hs : s = [] := List.getLast?_eq_none.1 hL
    subst hs
    rw [add_price_core_nil] at hcd'
    simp only [List.mem_singleton] at hcd'
    subst hcd'
    exact hnew
  | some L =>
    have hLmem : L ∈ s := getLast?_eq_some_mem s L hL
    by_cases heq : L.timestamp = get_period_start t interval
    · rw [add_price_core_update interval s p v t L hL heq] at hcd'
      rcases List.mem_append.1 hcd' with h | h
      · exact hohlc cd (List.mem_of_mem_dropLast h)
      · simp only [List.mem_singleton] at h
        subst h
        have hLok := hohlc L hLmem
        unfold ohlcOk at hLok ⊢
        obtain ⟨hl1, hl2, hl3, hl4⟩ := hLok
        simp only
        refine ⟨?_, ?_, ?_, ?_⟩
        · exact le_min (le_trans (min_le_left _ _)
            (le_trans hl1 (min_le_left _ _))) (min_le_right _ _)
        · exact min_le_max
        · exact max_le (le_trans (le_trans (le_max_left _ _) hl3)
            (le_max_left _ _)) (le_max_right _ _)
        · exact add_nonneg hl4 hv
    · rw [add_price_core_append interval s p v t L hL heq] at hcd'
      rcases List.mem_append.1 hcd' with h | h
      · rcases List.mem_append.1 h with h2 | h2
        · exact hohlc cd h2
        · obtain ⟨k, hk⟩ := mem_gapFill _ _ _ _ _ h2
          subst hk
          unfold ohlcOk flatCandle
          simp
      · simp only [List.mem_singleton] at h
        subst h
        exact hnew

/-! ### Store-level reachability invariants -/

theorem add_price_apply_ne (S : Store) (symbol : String) (interval : ℕ) (p v : ℚ)
    (t : ℤ) (sym' : String) (i' : ℕ) (h : ¬(sym' = symbol ∧ i' = interval)) :
    add_price S symbol interval p v t sym' i' = S sym' i' := by
  unfold add_price
  rw [if_neg h]

theorem add_price_apply_eq (S : Store) (symbol : String) (interval : ℕ) (p v : ℚ)
    (t : ℤ) :
    add_price S symbol interval p v t symbol interval =
      add_price_series interval (S symbol interval) p v t := by
  unfold add_price
  rw [if_pos ⟨rfl, rfl⟩]

theorem runTraceFrom_chain_aligned (tr : List Ev) : ∀ S : Store,
    (∀ e ∈ tr, 0 < e.interval) → storeInOrderB S tr = true →
    (∀ sym i, List.Chain' (chainStep i) (S sym i) ∧
      ∀ cd ∈ S sym i, aligned i cd.timestamp) →
    ∀ sym i, List.Chain' (chainStep i) (runTraceFrom S tr sym i) ∧
      ∀ cd ∈ runTraceFrom S tr sym i, aligned i cd.timestamp := by
  induction tr with
  | nil =>
    intro S _ _ hInv sym i
    exact hInv sym i
  | cons e r ih =>
    intro S hpos hord hInv sym i
    simp only [runTraceFrom]
    simp only [storeInOrderB, Bool.and_eq_true] at hord
    obtain ⟨hord1, hord2⟩ := hord
    refine ih _ (fun e' he' => hpos e' (List.mem_cons_of_mem _ he')) hord2 ?_ sym i
    intro sym' i'
    by_cases hkey : sym' = e.symbol ∧ i' = e.interval
    · obtain ⟨rfl, rfl⟩ := hkey
      rw [add_price_apply_eq]
      have hepos : 0 < e.interval := hpos e (List.mem_cons_self _ _)
      have hInvE := hInv e.symbol e.interval
      have hordE : ∀ L ∈ (S e.symbol e.interval).getLast?,
          L.timestamp ≤ get_period_start e.time e.interval := by
        intro L hLmem
        cases hgl : (S e.symbol e.interval).getLast? with
        | none =>
          rw [hgl] at hLmem
          simp at hLmem
        | some L' =>
          rw [hgl] at hLmem
          simp only [Option.mem_def, Option.some.injEq] at hLmem
          subst hLmem
          rw [hgl] at hord1
          exact of_decide_eq_true hord1
      exact ⟨step_preserves_chain e.interval hepos _ e.price e.volume e.time
          hInvE.1 hInvE.2 hordE,
        step_preserves_aligned e.interval _ e.price e.volume e.time hInvE.2⟩
    · rw [add_price_apply_ne S e.symbol e.interval e.price e.volume e.time sym' i' hkey]
      exact hInv sym' i'

theorem runTraceFrom_ohlc (tr : List Ev) : ∀ S : Store,
    (∀ e ∈ tr, 0 ≤ e.price ∧ 0 ≤ e.volume) →
    (∀ sym i, ∀ cd ∈ S sym i, ohlcOk cd) →
    ∀ sym i, ∀ cd ∈ runTraceFrom S tr sym i, ohlcOk cd := by
  induction tr with
  | nil =>
    intro S _ hInv sym i
    exact hInv sym i
  | cons e r ih =>
    intro S hpos hInv sym i
    simp only [runTraceFrom]
    refine ih _ (fun e' he' => hpos e' (List.mem_cons_of_mem _ he')) ?_ sym i
    intro sym' i'
    by_cases hkey : sym' = e.symbol ∧ i' = e.interval
    · obtain ⟨rfl, rfl⟩ := hkey
      rw [add_price_apply_eq]
      have he := hpos e (List.mem_cons_self _ _)
      exact step_preserves_ohlc e.interval _ e.price e.volume e.time he.1 he.2
        (hInv e.symbol e.interval)
    · rw [add_price_apply_ne S e.symbol e.interval e.price e.volume e.time sym' i' hkey]
      exact hInv sym' i'

theorem runTraceFrom_aligned (tr : List Ev) : ∀ S : Store,
    (∀ sym i, ∀ cd ∈ S sym i, aligned i cd.timestamp) →
    ∀ sym i, ∀ cd ∈ runTraceFrom S tr sym i, aligned i cd.timestamp := by
  induction tr with
  | nil =>
    intro S hInv sym i
    exact hInv sym i
  | cons e r ih =>
    intro S hInv sym i
    simp only [runTraceFrom]
    refine ih _ ?_ sym i
    intro sym' i'
    by_cases hkey : sym' = e.symbol ∧ i' = e.interval
    · obtain ⟨rfl, rfl⟩ := hkey
      rw [add_price_apply_eq]
      exact step_preserves_aligned e.interval _ e.price e.volume e.time
        (hInv e.symbol e.interval)
    · rw [add_price_apply_ne S e.symbol e.interval e.price e.volume e.time sym' i' hkey]
      exact hInv sym' i'

theorem runTraceFrom_length (tr : List Ev) : ∀ S : Store,
    (∀ sym i, (S sym i).length ≤ MAX_CANDLES) →
    ∀ sym i, (runTraceFrom S tr sym i).length ≤ MAX_CANDLES := by
  induction tr with
  | nil =>
    intro S hInv sym i
    exact hInv sym i
  | cons e r ih =>
    intro S hInv sym i
    simp only [runTraceFrom]
    refine ih _ ?_ sym i
    intro sym' i'
    by_cases hkey : sym' = e.symbol ∧ i' = e.interval
    · obtain ⟨rfl, rfl⟩ := hkey
      rw [add_price_apply_eq]
      exact length_add_price_series_le e.interval _ e.price e.volume e.time
    · rw [add_price_apply_ne S e.symbol e.interval e.price e.volume e.time sym' i' hkey]
      exact hInv sym' i'

theorem emptyStore_apply (sym : String) (i : ℕ) : emptyStore sym i = [] := rfl

theorem gapFill_nil_of_le (lastClose : ℚ) (interval : ℕ) (missing period : ℤ)
    (h : period ≤ missing) : gapFill lastClose interval missing period = [] := by
  rw [gapFill_eq, if_neg]
  rintro ⟨_, h2⟩
  omega

theorem gapCount_lt_iff (interval : ℕ) (missing period : ℤ) (hi : 0 < interval) (k : ℕ) :
    k < gapCount interval missing period ↔ missing + (k : ℤ) * interval < period := by
  have hi' : (0 : ℤ) < interval := by exact_mod_cast hi
  have hknn : (0 : ℤ) ≤ (k : ℤ) * interval := mul_nonneg (Int.ofNat_nonneg k) (le_of_lt hi')
  unfold gapCount
  by_cases hlt : missing < period
  · rw [if_pos ⟨hi, hlt⟩]
    have hdiv := Int.le_ediv_iff_mul_le (a := (k : ℤ)) (b := period - missing - 1) hi'
    have hnn : 0 ≤ (period - missing - 1) / (interval : ℤ) :=
      Int.ediv_nonneg (by omega) (by omega)
    constructor
    · intro hk
      have hle : (k : ℤ) ≤ (period - missing - 1) / interval := by
        generalize hD : (period - missing - 1) / (interval : ℤ) = D at hnn
        omega
      have := hdiv.1 hle
      linarith
    · intro hk
      have h1 : (k : ℤ) * interval ≤ period - missing - 1 := by linarith
      have h2 : (k : ℤ) ≤ (period - missing - 1) / interval := hdiv.2 h1
      generalize hD : (period - missing - 1) / (interval : ℤ) = D at h2 hnn
      omega
  · rw [if_neg (by tauto)]
    simp only [Nat.not_lt_zero, false_iff, not_lt]
    linarith

/-! ### Claim C1 -/

/-- Claim C1, counterexample: out-of-order events are NOT rejected.  With
the store holding one interval-60 candle at `bucket_start = 120`, the call
`add_price("AAPL", 60, 90, 1, 0)` computes `period_start = 0 < 120` and
still changes the series: a new candle at timestamp 0 is appended after
the candle at 120. -/
theorem C1_out_of_order_counterexample :
    ((add_price emptyStore "AAPL" 60 100 5 120) "AAPL" 60).getLast? =
      some { open_ := 100, high := 100, low := 100, close := 100, volume := 5, timestamp := 120 } ∧
    get_period_start 0 60 < 120 ∧
    (add_price (add_price emptyStore "AAPL" 60 100 5 120) "AAPL" 60 90 1 0) "AAPL" 60 ≠
      (add_price emptyStore "AAPL" 60 100 5 120) "AAPL" 60 := by
  decide

/-- Claim C1, amended: a call whose `period_start` is strictly below the
last candle's `bucket_start` is not rejected; instead (when the series is
below the retention cap) it appends one fresh candle at `period_start`
(with `open = high = low = close = price` and `volume = volume`) to the
end of the series, with no gap-fill candles. -/
theorem C1_out_of_order_appends (S : Store) (symbol : String) (interval : ℕ)
    (p v : ℚ) (t : ℤ) (L : Candle) (hi : 0 < interval)
    (hL : (S symbol interval).getLast? = some L)
    (hlt : get_period_start t interval < L.timestamp)
    (hlen : (S symbol interval).length < MAX_CANDLES) :
    (add_price S symbol interval p v t) symbol interval =
      S symbol interval ++
        [{ open_ := p, high := p, low := p, close := p, volume := v,
           timestamp := get_period_start t interval }] := by
  have hi' : (0 : ℤ) < interval := by exact_mod_cast hi
  have hne : L.timestamp ≠ get_period_start t interval := by omega
  have hgap : gapFill L.close interval (L.timestamp + interval)
      (get_period_start t interval) = [] :=
    gapFill_nil_of_le _ _ _ _ (by omega)
  rw [add_price_apply_eq, add_price_series_eq_drop,
    add_price_core_append interval (S symbol interval) p v t L hL hne, hgap,
    List.append_nil, Nat.sub_eq_zero_of_le, List.drop_zero]
  rw [List.length_append]
  simp only [List.length_singleton]
  omega

/-- Claim C1, witness for the amended theorem at a concrete input. -/
theorem C1_out_of_order_witness :
    (add_price (add_price emptyStore "AAPL" 60 100 5 120) "AAPL" 60 90 1 0) "AAPL" 60 =
      (add_price emptyStore "AAPL" 60 100 5 120) "AAPL" 60 ++
        [{ open_ := 90, high := 90, low := 90, close := 90, volume := 1,
           timestamp := get_period_start 0 60 }] :=
  C1_out_of_order_appends (add_price emptyStore "AAPL" 60 100 5 120) "AAPL" 60 90 1 0
    { open_ := 100, high := 100, low := 100, close := 100, volume := 5, timestamp := 120 }
    (by decide) (by decide) (by decide) (by decide)

/-! ### Claim C2 -/

/-- Claim C2, counterexample: reachable series are not always continuous.
Two `add_price` calls (buckets 120 then 0, interval 60) yield a series
whose successive `bucket_start` values do not differ by the interval. -/
theorem C2_continuity_counterexample :
    runTrace [⟨"AAPL", 60, 100, 5, 120⟩, ⟨"AAPL", 60, 90, 1, 0⟩] "AAPL" 60 =
      [{ open_ := 100, high := 100, low := 100, close := 100, volume := 5, timestamp := 120 },
       { open_ := 90, high := 90, low := 90, close := 90, volume := 1, timestamp := 0 }] ∧
    ¬ List.Chain' (chainStep 60)
        (runTrace [⟨"AAPL", 60, 100, 5, 120⟩, ⟨"AAPL", 60, 90, 1, 0⟩] "AAPL" 60) := by
  have h : runTrace [⟨"AAPL", 60, 100, 5, 120⟩, ⟨"AAPL", 60, 90, 1, 0⟩] "AAPL" 60 =
      [{ open_ := 100, high := 100, low := 100, close := 100, volume := 5, timestamp := 120 },
       { open_ := 90, high := 90, low := 90, close := 90, volume := 1, timestamp := 0 }] := by
    decide
  refine ⟨h, ?_⟩
  rw [h]
  intro hchain
  have hstep := (List.chain'_cons.1 hchain).1
  unfold chainStep at hstep
  norm_num at hstep

/-- Claim C2, amended: for every `(symbol, interval)` series reachable by
a sequence of `add_price` calls with positive intervals in which every
call is in order (its `period_start` is not below the then-last candle's
`bucket_start`), successive candles' `bucket_start` values differ by
exactly `interval` seconds. -/
theorem C2_continuity_amended (tr : List Ev)
    (hpos : ∀ e ∈ tr, 0 < e.interval)
    (hord : storeInOrderB emptyStore tr = true) (sym : String) (i : ℕ) :
    List.Chain' (chainStep i) (runTrace tr sym i) := by
  have hInv : ∀ sym' i', List.Chain' (chainStep i') (emptyStore sym' i') ∧
      ∀ cd ∈ emptyStore sym' i', aligned i' cd.timestamp := by
    intro sym' i'
    rw [emptyStore_apply]
    exact ⟨List.chain'_nil, by intro cd hcd; simp at hcd⟩
  exact (runTraceFrom_chain_aligned tr emptyStore hpos hord hInv sym i).1

/-- Claim C2, witness for the amended theorem at a concrete in-order
trace (two trades, interval 60, buckets 0 then 120, gap-filled). -/
theorem C2_continuity_witness :
    storeInOrderB emptyStore [⟨"AAPL", 60, 100, 5, 0⟩, ⟨"AAPL", 60, 90, 1, 130⟩] = true ∧
    List.Chain' (chainStep 60)
      (runTrace [⟨"AAPL", 60, 100, 5, 0⟩, ⟨"AAPL", 60, 90, 1, 130⟩] "AAPL" 60) :=
  ⟨by decide, C2_continuity_amended _ (by decide) (by decide) "AAPL" 60⟩

/-! ### Claim C3 -/

/-- Claim C3: every candle present after any sequence of `add_price`
calls whose prices and volumes are non-negative satisfies
`low ≤ min(open, close) ≤ max(open, close) ≤ high` and `volume ≥ 0`. -/
theorem C3_ohlc_invariant (tr : List Ev)
    (hnn : ∀ e ∈ tr, 0 ≤ e.price ∧ 0 ≤ e.volume) (sym : String) (i : ℕ)
    (cd : Candle) (hcd : cd ∈ runTrace tr sym i) :
    cd.low ≤ min cd.open_ cd.close ∧ min cd.open_ cd.close ≤ max cd.open_ cd.close ∧
      max cd.open_ cd.close ≤ cd.high ∧ 0 ≤ cd.volume := by
  have hInv : ∀ sym' i', ∀ cd' ∈ emptyStore sym' i', ohlcOk cd' := by
    intro sym' i' cd' hcd'
    rw [emptyStore_apply] at hcd'
    simp at hcd'
  exact runTraceFrom_ohlc tr emptyStore hnn hInv sym i cd hcd

/-- Claim C3, witness: the candle produced by a concrete trade satisfies
the OHLC invariant. -/
theorem C3_ohlc_witness :
    ohlcOk { open_ := 100, high := 100, low := 100, close := 100, volume := 5,
             timestamp := 1699999980 } :=
  C3_ohlc_invariant [⟨"AAPL", 60, 100, 5, 1700000000⟩]
    (by decide) "AAPL" 60 _
    (by
      have h : runTrace [⟨"AAPL", 60, 100, 5, 1700000000⟩] "AAPL" 60 =
          [{ open_ := 100, high := 100, low := 100, close := 100, volume := 5,
             timestamp := 1699999980 }] := by decide
      rw [h]
      exact List.mem_singleton_self _)

/-! ### Claim C4 -/

/-- Claim C4: when a trade's `period_start` lies strictly beyond the last
candle's `bucket_start + interval` (and the result fits under the
retention cap), `add_price` first appends flat gap-fill candles at the
consecutive timestamps `last.bucket_start + (k+1)·interval`
(`k = 0, 1, …`), each carrying the previous close with zero volume, for
exactly those timestamps strictly below `period_start`, and then appends
the new trade candle at `period_start`. -/
theorem C4_gap_fill (interval : ℕ) (s : List Candle) (p v : ℚ) (t : ℤ) (L : Candle)
    (hi : 0 < interval) (hL : s.getLast? = some L)
    (hgap : L.timestamp + interval < get_period_start t interval)
    (hlen : s.length +
      gapCount interval (L.timestamp + interval) (get_period_start t interval) + 1 ≤
        MAX_CANDLES) :
    add_price_series interval s p v t =
      (s ++ (List.range
          (gapCount interval (L.timestamp + interval) (get_period_start t interval))).map
            (fun k : ℕ =>
              { open_ := L.close, high := L.close, low := L.close, close := L.close,
                volume := 0, timestamp := L.timestamp + ((k : ℤ) + 1) * interval })) ++
        [{ open_ := p, high := p, low := p, close := p, volume := v,
           timestamp := get_period_start t interval }] ∧
    ∀ k : ℕ,
      (k < gapCount interval (L.timestamp + interval) (get_period_start t interval) ↔
        L.timestamp + ((k : ℤ) + 1) * interval < get_period_start t interval) := by
  have hi' : (0 : ℤ) < interval := by exact_mod_cast hi
  have hne : L.timestamp ≠ get_period_start t interval := by omega
  constructor
  · rw [add_price_series_eq_drop,
      add_price_core_append interval s p v t L hL hne, gapFill_eq_range]
    have hfun : (fun k : ℕ =>
        flatCandle L.close (L.timestamp + (interval : ℤ) + (k : ℤ) * interval)) =
        (fun k : ℕ =>
          ({ open_ := L.close, high := L.close, low := L.close, close := L.close,
             volume := 0, timestamp := L.timestamp + ((k : ℤ) + 1) * interval } : Candle)) := by
      funext k
      simp only [flatCandle, Candle.mk.injEq, true_and, and_true]
      push_cast
      ring
    rw [hfun, Nat.sub_eq_zero_of_le, List.drop_zero]
    simp only [List.length_append, List.length_map, List.length_range,
      List.length_singleton]
    omega
  · intro k
    have h := gapCount_lt_iff interval (L.timestamp + interval)
      (get_period_start t interval) hi k
    constructor
    · intro hk
      have := h.1 hk
      push_cast
      linarith
    · intro hk
      refine h.2 ?_
      push_cast at hk
      linarith

/-- Claim C4, witness at a concrete input: a trade three buckets after
the last candle inserts two flat gap candles and then the trade candle. -/
theorem C4_gap_fill_witness :
    add_price_series 60
      [{ open_ := 100, high := 100, low := 100, close := 100, volume := 5, timestamp := 0 }]
      90 4 180 =
      [{ open_ := 100, high := 100, low := 100, close := 100, volume := 5, timestamp := 0 },
       { open_ := 100, high := 100, low := 100, close := 100, volume := 0, timestamp := 60 },
       { open_ := 100, high := 100, low := 100, close := 100, volume := 0, timestamp := 120 },
       { open_ := 90, high := 90, low := 90, close := 90, volume := 4, timestamp := 180 }] := by
  rw [(C4_gap_fill 60
      [{ open_ := 100, high := 100, low := 100, close := 100, volume := 5, timestamp := 0 }]
      90 4 180
      { open_ := 100, high := 100, low := 100, close := 100, volume := 5, timestamp := 0 }
      (by decide) (by decide) (by decide) (by decide)).1]
  decide

/-! ### Claim C5 -/

/-- Claim C5, counterexample: for a negative `event_time` the code's
truncating `%` differs from the floor formula of the spec: at
`event_time = -1`, interval 60, the code returns bucket 0 while
`floor(-1/60)·60 = -60`. -/
theorem C5_negative_time_counterexample :
    get_period_start (-1) 60 = 0 ∧ (60 : ℤ) * (-1 / 60) = -60 ∧
      get_period_start (-1) 60 ≠ 60 * ((-1 : ℤ) / 60) := by
  decide

/-- Claim C5, amended: for every `event_time ≥ 0` the computed bucket is
`floor(event_time / interval) · interval` for the minute/hour intervals
and for 2592000, midnight UTC of the event's date for 86400, and the
preceding Monday 00:00 UTC for 604800 (a Monday-midnight instant is
exactly one congruent to 345600 modulo 604800); the alignment function is
idempotent, and every stored `bucket_start` is one of its fixed points.
(For negative `event_time` the minute/hour/month arms truncate toward
zero instead of flooring.) -/
theorem C5_alignment_amended :
    (∀ t : ℤ, 0 ≤ t → ∀ i ∈ ([60, 180, 300, 900, 1800, 3600, 2592000] : List ℕ),
      get_period_start t i = (i : ℤ) * (t / (i : ℤ))) ∧
    (∀ t : ℤ, get_period_start t 86400 = 86400 * (t / 86400)) ∧
    (∀ t : ℤ, get_period_start t 604800 ≤ t ∧ t - get_period_start t 604800 < 604800 ∧
      get_period_start t 604800 % 604800 = 345600) ∧
    (∀ (t : ℤ) (i : ℕ), get_period_start (get_period_start t i) i = get_period_start t i) ∧
    (∀ (tr : List Ev) (sym : String) (i : ℕ) (cd : Candle), cd ∈ runTrace tr sym i →
      get_period_start cd.timestamp i = cd.timestamp) := by
  refine ⟨?_, ?_, ?_, ?_, ?_⟩
  · intro t ht i hi
    fin_cases hi <;>
      (unfold get_period_start; norm_num) <;>
      (rw [Int.tmod_eq_emod ht (by norm_num)]; omega)
  · intro t
    unfold get_period_start
    norm_num
  · intro t
    unfold get_period_start
    norm_num
    omega
  · intro t i
    exact aligned_get_period_start t i
  · intro tr sym i cd hcd
    have hInv : ∀ sym' i', ∀ cd' ∈ emptyStore sym' i', aligned i' cd'.timestamp := by
      intro sym' i' cd' hcd'
      rw [emptyStore_apply] at hcd'
      simp at hcd'
    exact runTraceFrom_aligned tr emptyStore hInv sym i cd hcd

/-- Claim C5, witness for the amended theorem at concrete inputs. -/
theorem C5_alignment_witness :
    get_period_start 1700000000 60 = 60 * ((1700000000 : ℤ) / 60) ∧
    get_period_start 1700000000 604800 % 604800 = 345600 :=
  ⟨C5_alignment_amended.1 1700000000 (by decide) 60 (by decide),
   (C5_alignment_amended.2.2.1 1700000000).2.2⟩

/-! ### Claim C6 -/

/-- Claim C6: folding two trades with equal `period_start` into an empty
series yields one candle with `open = T1.price`, `close = T2.price`,
`high = max`, `low = min`, `volume = T1.amount + T2.amount`; in general a
trade whose `period_start` equals the last candle's `bucket_start`
updates that candle by `high = max(high, price)`, `low = min(low, price)`,
`close = price`, `volume += amount` and changes nothing else. -/
theorem C6_fold_within_bucket :
    (∀ (interval : ℕ) (p1 v1 p2 v2 : ℚ) (t1 t2 : ℤ),
      get_period_start t1 interval = get_period_start t2 interval →
      add_price_series interval (add_price_series interval [] p1 v1 t1) p2 v2 t2 =
        [{ open_ := p1, high := max p1 p2, low := min p1 p2, close := p2,
           volume := v1 + v2, timestamp := get_period_start t1 interval }]) ∧
    (∀ (interval : ℕ) (s : List Candle) (p v : ℚ) (t : ℤ) (L : Candle),
      s.getLast? = some L → L.timestamp = get_period_start t interval →
      s.length ≤ MAX_CANDLES →
      add_price_series interval s p v t =
        s.dropLast ++
          [{ L with
              high := max L.high p
              low := min L.low p
              close := p
              volume := L.volume + v }]) := by
  have hpart2 : ∀ (interval : ℕ) (s : List Candle) (p v : ℚ) (t : ℤ) (L : Candle),
      s.getLast? = some L → L.timestamp = get_period_start t interval →
      s.length ≤ MAX_CANDLES →
      add_price_series interval s p v t =
        s.dropLast ++
          [{ L with
              high := max L.high p
              low := min L.low p
              close := p
              volume := L.volume + v }] := by
    intro interval s p v t L hL heq hlen
    have hne : s ≠ [] := by rintro rfl; simp at hL
    have hpos : 0 < s.length := List.length_pos.2 hne
    rw [add_price_series_eq_drop, add_price_core_update interval s p v t L hL heq,
      Nat.sub_eq_zero_of_le, List.drop_zero]
    simp only [List.length_append, List.length_dropLast, List.length_singleton]
    omega
  refine ⟨?_, hpart2⟩
  intro interval p1 v1 p2 v2 t1 t2 hps
  have h1 : add_price_series interval [] p1 v1 t1 =
      [{ open_ := p1, high := p1, low := p1, close := p1, volume := v1,
         timestamp := get_period_start t1 interval }] := by
    rw [add_price_series_eq_drop, add_price_core_nil, Nat.sub_eq_zero_of_le,
      List.drop_zero]
    simp only [List.length_singleton]
    unfold MAX_CANDLES
    omega
  rw [h1]
  rw [hpart2 interval
    [{ open_ := p1, high := p1, low := p1, close := p1, volume := v1,
       timestamp := get_period_start t1 interval }] p2 v2 t2
    { open_ := p1, high := p1, low := p1, close := p1, volume := v1,
      timestamp := get_period_start t1 interval }
    rfl (by simpa using hps) (by simp [MAX_CANDLES])]
  simp

/-- Claim C6, witness at concrete inputs (two trades in one minute
bucket). -/
theorem C6_fold_witness :
    add_price_series 60 (add_price_series 60 [] 100 1 1700000000) 110 2 1700000030 =
      [{ open_ := 100, high := max 100 110, low := min 100 110, close := 110,
         volume := 1 + 2, timestamp := get_period_start 1700000000 60 }] :=
  C6_fold_within_bucket.1 60 100 1 110 2 1700000000 1700000030 (by decide)

/-! ### Claim C7 -/

/-- Claim C7: after any sequence of `add_price` calls every
`(symbol, interval)` series has length at most `MAX_CANDLES`, and each
call truncates by dropping exactly the excess oldest candles from the
front of the untruncated result, preserving the order of the rest. -/
theorem C7_bounded_length :
    (∀ (tr : List Ev) (sym : String) (i : ℕ),
      (runTrace tr sym i).length ≤ MAX_CANDLES) ∧
    (∀ (interval : ℕ) (s : List Candle) (p v : ℚ) (t : ℤ),
      add_price_series interval s p v t =
        (add_price_core interval s p v t).drop
          ((add_price_core interval s p v t).length - MAX_CANDLES)) := by
  constructor
  · intro tr sym i
    refine runTraceFrom_length tr emptyStore ?_ sym i
    intro sym' i'
    rw [emptyStore_apply]
    exact Nat.zero_le _
  · exact add_price_series_eq_drop

/-! ### Claim C8 -/

/-- Claim C8, counterexample: the subscription loop's cursor is not
monotone and does not skip low blocks.  A reconnect tick with
`latest_block = 50` rewinds a cursor of 100 to 40, and a record with
block number 5 (below the cursor 100) is still folded, resetting the
cursor to 5. -/
theorem C8_cursor_counterexample :
    deltaStep { cursor := 100, folded := [] } (DeltaEv.tick 50) =
      { cursor := 40, folded := [] } ∧
    (40 : ℤ) < 100 ∧
    deltaStep { cursor := 100, folded := [] } (DeltaEv.record 5) =
      { cursor := 5, folded := [5] } ∧ (5 : ℤ) < 100 := by
  decide

/-- Claim C8, amended: during historical backfill the cursor never moves
below its starting block; in the subscription loop every streamed record
is folded unconditionally (no block-number comparison against the
cursor) and the cursor is then set to that record's block number, while
each reconnect tick sets it to `latest_block` minus the 10-block buffer —
either of which may decrease it. -/
theorem C8_cursor_amended :
    (∀ cursor target : ℤ, cursor ≤ histLoop cursor target) ∧
    (∀ (s : DeltaState) (b : ℤ),
      (deltaStep s (DeltaEv.record b)).folded = s.folded ++ [b] ∧
        (deltaStep s (DeltaEv.record b)).cursor = b) ∧
    (∀ (s : DeltaState) (latest : ℤ),
      (deltaStep s (DeltaEv.tick latest)).cursor = satSub latest 10 ∧
        (deltaStep s (DeltaEv.tick latest)).folded = s.folded) := by
  refine ⟨?_, fun s b => ⟨rfl, rfl⟩, fun s latest => ⟨rfl, rfl⟩⟩
  intro cursor target
  induction cursor, target using histLoop.induct with
  | case1 cursor target h ih =>
    rw [histLoop, if_pos h]
    exact le_trans (le_min (by omega) (le_of_lt h)) ih
  | case2 cursor target h =>
    rw [histLoop, if_neg h]

/-! ### Claim C9 -/

/-- Claim C9: the event handler does NOT fold under the configured
symbol.  For a decoded Trade record it folds once per each of the nine
supported intervals, but always under the hard-coded symbol `"AAPL"`:
folding the sample trade leaves the series of any other configured
symbol (for example `"BTC/USDC"`) empty, while `"AAPL"` receives one
candle in each of the nine interval series. -/
theorem C9_hardcoded_symbol :
    (handle_order_event emptyStore sampleTradeEvent) "AAPL" 60 =
      [{ open_ := 100, high := 100, low := 100, close := 100, volume := 5,
         timestamp := 1699999980 }] ∧
    (handle_order_event emptyStore sampleTradeEvent) "BTC/USDC" 60 = [] ∧
    (intervals.all
      (fun i => !((handle_order_event emptyStore sampleTradeEvent) "AAPL" i).isEmpty)) =
        true := by
  decide

/-! ### Claim C10 -/

/-- Claim C10, counterexample: the resolution strings `"3"`, `"D"`,
`"W"`, `"1M"` and `"M"` are claimed to resolve to intervals, but the
code's match sends them all to the error arm. -/
theorem C10_resolution_counterexample :
    resolveResolution "3" = none ∧ resolveResolution "D" = none ∧
      resolveResolution "W" = none ∧ resolveResolution "1M" = none ∧
      resolveResolution "M" = none := by
  decide

/-- Claim C10, amended: the resolution map of the history endpoint is
exactly `"1"→60, "5"→300, "15"→900, "30"→1800, "60"→3600, "1D"→86400,
"1W"→604800`; every other string (including `"3"`, `"D"`, `"W"`, `"1M"`,
`"M"`) produces the error response. -/
theorem C10_resolution_amended :
    (resolveResolution "1" = some 60 ∧ resolveResolution "5" = some 300 ∧
      resolveResolution "15" = some 900 ∧ resolveResolution "30" = some 1800 ∧
      resolveResolution "60" = some 3600 ∧ resolveResolution "1D" = some 86400 ∧
      resolveResolution "1W" = some 604800) ∧
    (∀ r : String, r ≠ "1" → r ≠ "5" → r ≠ "15" → r ≠ "30" → r ≠ "60" →
      r ≠ "1D" → r ≠ "1W" → resolveResolution r = none) := by
  constructor
  · exact ⟨by decide, by decide, by decide, by decide, by decide, by decide, by decide⟩
  · intro r h1 h5 h15 h30 h60 h1D h1W
    unfold resolveResolution
    rw [if_neg h1, if_neg h5, if_neg h15, if_neg h30, if_neg h60, if_neg h1D,
      if_neg h1W]

/-- Claim C10, witness for the amended theorem: `"3"` falls through to
the error arm. -/
theorem C10_resolution_witness : resolveResolution "3" = none :=
  C10_resolution_amended.2 "3" (by decide) (by decide) (by decide) (by decide)
    (by decide) (by decide) (by decide)

end SparkCandles
